import Mathlib

/-!
Verification of the AiVantu render pipeline (`src/app.py`).

Strings are modelled as `List Char`; the Python operations used by the
pipeline (`str.find`, slicing, `str.strip`, `in`, `re.split`, `str.lower`)
are embedded as executable Lean functions below, and the pipeline pieces of
`generate_video` / `render_video_multi_characters` are translated on top of
them.  Durations (moviepy clip lengths) are modelled as exact rationals.
-/

namespace AiVantu

/-- Whitespace as recognised by Python `str.strip` / `\s` (ASCII range). -/
def isWs (c : Char) : Bool :=
  c = ' ' || c = '\t' || c = '\n' || c = '\x0d' || c = '\x0b' || c = '\x0c'

/-- Sentence-final punctuation of the `re.split` pattern in `generate_video`. -/
def isPunct (c : Char) : Bool :=
  c = '.' || c = '!' || c = '?'

/-- Python `str.lstrip` (whitespace). -/
def lstrip (s : List Char) : List Char := s.dropWhile isWs

/-- Python `str.rstrip` (whitespace). -/
def rstrip (s : List Char) : List Char := (s.reverse.dropWhile isWs).reverse

/-- Python `str.strip` (whitespace). -/
def strip (s : List Char) : List Char := rstrip (lstrip s)

/-- Does `pat` occur in `s` at offset `q`?  (Python `s[q:q+len(pat)] == pat`.) -/
def matchAt (pat s : List Char) (q : Nat) : Prop :=
  (s.drop q).take pat.length = pat

instance (pat s : List Char) (q : Nat) : Decidable (matchAt pat s q) := by
  unfold matchAt; infer_instance

/-- Scan helper for `findFrom`: try offsets `i, i+1, ...` along `l`. -/
def findAux (pat : List Char) : List Char → Nat → Option Nat
  | [], i => if pat = [] then some i else none
  | c :: t, i => if ((c :: t).take pat.length) = pat then some i else findAux pat t (i + 1)

/-- Python `s.find(pat, start)` (with `none` for `-1`). -/
def findFrom (s pat : List Char) (start : Nat) : Option Nat :=
  findAux pat (s.drop start) start

/-- Python `pat in s`. -/
def containsSub (s pat : List Char) : Bool := (findFrom s pat 0).isSome

/-- Decimal digits of a natural number (fuel-based so that it reduces in the
kernel); `natCharsAux (n+1) n` is the decimal representation of `n`, as
rendered by the Python f-string `f"[C{i+1}]:"`. -/
def natCharsAux : Nat → Nat → List Char
  | 0, _ => []
  | fuel + 1, n =>
    if n < 10 then [Nat.digitChar n]
    else natCharsAux fuel (n / 10) ++ [Nat.digitChar (n % 10)]

/-- Decimal representation of `n` as a character list. -/
def natChars (n : Nat) : List Char := natCharsAux (n + 1) n

/-- The marker string `f"[C{k}]:"` built in `generate_video` (line 460). -/
def markerStr (k : Nat) : List Char :=
  '[' :: 'C' :: (natChars k ++ [']', ':'])

/-- The list `markers` of `generate_video` (lines 458-460): markers
`[C1]:` … `[Cn]:` for `n` character images. -/
def markersList (n : Nat) : List (List Char) :=
  (List.range n).map (fun i => markerStr (i + 1))

/-- The `min([...] + [len(remaining)])` computation of line 469: the least
occurrence of any marker at or after `start`, defaulting to the script
length. -/
def nextMarkerIdx (script : List Char) (ms : List (List Char)) (start : Nat) : Nat :=
  (ms.filterMap (fun m => findFrom script m start)).foldl min script.length

/-- Marker-mode segmentation (lines 462-473 of `generate_video`): for each
marker, take the substring from just past the marker to the next marker
occurrence strictly after it, strip it, and replace an empty result by a
single space. -/
def segmentMarkers (script : List Char) (n : Nat) : List (List Char) :=
  (List.range n).map (fun i =>
    let m := markerStr (i + 1)
    match findFrom script m 0 with
    | none => [' ']
    | some idx =>
      let nxt := nextMarkerIdx script (markersList n) (idx + 1)
      let part := strip ((script.drop (idx + m.length)).take (nxt - (idx + m.length)))
      if part = [] then [' '] else part)

/-- Single state-machine pass implementing `re.split(r'(?<=[.!?])\s+', s)`:
`skipping` means we are inside a separator run of whitespace; `cur` is the
reversed current segment.  A split begins at a whitespace character whose
immediate predecessor is `.`, `!` or `?`. -/
def splitAux (skipping : Bool) (cur : List Char) : List Char → List (List Char)
  | [] => [cur.reverse]
  | c :: rest =>
    if skipping then
      if isWs c then splitAux true [] rest
      else splitAux false [c] rest
    else if isWs c && (match cur with | p :: _ => isPunct p | [] => false) then
      cur.reverse :: splitAux true [] rest
    else splitAux false (c :: cur) rest

/-- `re.split(r'(?<=[.!?])\s+', s)` (line 477 of `generate_video`). -/
def splitSentences (s : List Char) : List (List Char) := splitAux false [] s

/-- The round-robin distribution loop of lines 481-483:
`parts[idx % len(parts)] += (s + " ")` for `idx, s` in `enumerate(sentences)`. -/
def distributeAux (n : Nat) : List (List Char) → Nat → List (List Char) → List (List Char)
  | [], _, parts => parts
  | s :: rest, idx, parts =>
    distributeAux n rest (idx + 1)
      (parts.set (idx % n) ((parts.getD (idx % n) []) ++ s ++ [' ']))

/-- `p.strip() if p.strip() else " "` (line 484). -/
def padSeg (p : List Char) : List Char :=
  if strip p = [] then [' '] else strip p

/-- Sentence round-robin fallback of `generate_video` (lines 476-484). -/
def roundRobinMode (script : List Char) (n : Nat) : List (List Char) :=
  let sents0 := splitSentences (strip script)
  let sents := if sents0 = [] then [strip script] else sents0
  let parts := distributeAux n sents 0 (List.replicate n [])
  parts.map padSeg

/-- `ScriptSegmenter.segment`: the script-splitting logic of `generate_video`
(lines 456-484) for `n` character slots. -/
def segment (script : List Char) (n : Nat) : List (List Char) :=
  if (markersList n).any (fun m => containsSub script m) then
    segmentMarkers script n
  else
    roundRobinMode script n

/-- Python `str.lower` (ASCII, which covers every tier string compared). -/
def lowerStr (s : List Char) : List Char := s.map Char.toLower

/-- Bitrate selection of `render_video_multi_characters` (lines 274-279). -/
def selectBitrate (quality : List Char) : List Char :=
  let hd :=
    if quality ≠ [] ∧ (lowerStr quality = "fullhd".data ∨ lowerStr quality = "full hd".data ∨
        lowerStr quality = "1080".data ∨ lowerStr quality = "1080p".data) then
      "2500k".data
    else "800k".data
  if quality ≠ [] ∧ (lowerStr quality = "4k".data ∨ lowerStr quality = "2160".data ∨
      lowerStr quality = "2160p".data) then
    "8000k".data
  else hd

/-- `n_loops = int(final_video.duration / bg_clip.duration) + 1` (line 261);
for positive durations Python `int` truncation is the floor. -/
def nLoops (T B : ℚ) : ℤ := ⌊T / B⌋ + 1

/-- Duration of the concatenation of `nLoops` whole copies of the background
track (line 262-263). -/
def loopedDur (T B : ℚ) : ℚ := (nLoops T B : ℚ) * B

/-- Duration of `clip.subclip(0, t)` for a clip of duration `d`. -/
def subclipDur (d t : ℚ) : ℚ := min d t

/-- Duration of the mixed background audio produced by lines 258-265: loop and
trim when the track is shorter than the timeline, else trim directly. -/
def bgFinalDur (T B : ℚ) : ℚ :=
  if B < T then subclipDur (loopedDur T B) T else subclipDur B T

/-- Per-slot pairing performed by `render_video_multi_characters`
(lines 232-247): `n = min(len(images), len(audios))`; `ValueError` when
`n == 0`; otherwise slots `0 … n-1` pair `images[i]` with `audios[i]`. -/
def composeSlots (imgs auds : List (List Char)) :
    Except (List Char) (List (List Char × List Char)) :=
  let n := min imgs.length auds.length
  if n = 0 then
    .error "No character images or audios provided for rendering".data
  else
    .ok ((List.range n).map (fun i => (imgs.getD i [], auds.getD i [])))

/-- Source of the audio chosen for one character slot. -/
inductive AudioSrc where
  /-- a per-slot clip from `character_voice_files` is used verbatim -/
  | uploaded (path : List Char)
  /-- the single generic `user_voice` upload is used for the slot -/
  | generic (path : List Char)
  /-- speech is synthesized by `gTTS(text, lang=lang)` -/
  | tts (text lang : List Char)
deriving DecidableEq, Repr

/-- Audio resolution for slot `i` (lines 489-508 of `generate_video`):
per-slot uploaded clip first, else the generic `user_voice` upload (when
present with an allowed extension), else gTTS on
`char_texts[i] if i < len(char_texts) else " "`, with `or " "` guarding an
empty text. -/
def resolveAudio (charVoices : List (List Char)) (userVoice : Option (List Char))
    (charTexts : List (List Char)) (lang : List Char) (i : Nat) : AudioSrc :=
  if i < charVoices.length then
    .uploaded (charVoices.getD i [])
  else
    match userVoice with
    | some p => .generic p
    | none =>
      let t := charTexts.getD i [' ']
      .tts (if t = [] then [' '] else t) lang

/-- Persisted status of a `UserVideo` row. -/
inductive JobStatus where
  | ready
  | rendering
  | done
  | failed
deriving DecidableEq, Repr

/-- HTTP outcome of `/generate_video`. -/
inductive GenResp where
  | ok
  | err (code : Nat) (msg : List Char)
deriving DecidableEq, Repr

/-- External collaborators of the pipeline: whether placeholder-image
creation, speech synthesis (per text) and the final render succeed. -/
structure GenEnv where
  placeholderOk : Bool
  ttsOk : List Char → Bool
  renderOk : Bool

/-- Inputs of one `/generate_video` request, after upload validation:
`charVoices` and `userVoice` contain only files with allowed extensions. -/
structure GenReq where
  script : List Char
  images : List (List Char)
  templateThumb : Option (List Char)
  charVoices : List (List Char)
  userVoice : Option (List Char)
  lang : List Char
  quality : List Char

/-- Image-list resolution of lines 398-420: uploaded images, else the
template thumbnail, else a generated placeholder; `none` when the
placeholder cannot be created. -/
def resolveImages (env : GenEnv) (req : GenReq) : Option (List (List Char)) :=
  if req.images ≠ [] then some req.images
  else
    match req.templateThumb with
    | some th => some [th]
    | none => if env.placeholderOk then some ["tmp/placeholder.png".data] else none

/-- The audio loop of lines 487-518 over the given slot indices: resolve each
slot's audio; a gTTS failure aborts the whole request. -/
def buildAudios (env : GenEnv) (req : GenReq) (texts : List (List Char)) :
    List Nat → Except (List Char) (List AudioSrc)
  | [] => .ok []
  | i :: rest =>
    match resolveAudio req.charVoices req.userVoice texts req.lang i with
    | .tts t l =>
      if env.ttsOk t then (buildAudios env req texts rest).map (fun as => .tts t l :: as)
      else .error "TTS failed".data
    | src => (buildAudios env req texts rest).map (fun as => src :: as)

/-- The `/generate_video` driver (lines 362-548): the job row is committed
with status `rendering` before anything else; the returned pair is the
job's persisted status when the request returns, together with the HTTP
response.  `env.renderOk` abstracts `render_video_multi_characters`
(any exception there, including its internal `ValueError` and encode
failures, lands in the `except` of lines 540-544). -/
def generateVideo (env : GenEnv) (req : GenReq) : JobStatus × GenResp :=
  match resolveImages env req with
  | none =>
    -- line 420: returns 400 WITHOUT touching `video.status`, which stays `rendering`
    (.rendering, .err 400 "No characters uploaded and placeholder creation failed".data)
  | some imgs =>
    let texts := segment req.script imgs.length
    match buildAudios env req texts (List.range imgs.length) with
    | .error _ => (.failed, .err 500 "TTS failed".data)
    | .ok _ =>
      if env.renderOk then (.done, .ok)
      else (.failed, .err 500 "Render failed".data)

/-- Script of the marker round-trip claim: the concatenation of the pieces
`f"[C{j}]: "` + `text_j` for `j = j0, j0+1, …`, in order. -/
def buildScript : List (List Char) → Nat → List Char
  | [], _ => []
  | t :: rest, j => markerStr j ++ (' ' :: (t ++ buildScript rest (j + 1)))

/-- Offset, inside `buildScript ts j`, of the piece of slot `r` (0-based). -/
def slotPos : List (List Char) → Nat → Nat → Nat
  | [], _, _ => 0
  | t :: rest, j, r =>
    match r with
    | 0 => 0
    | Nat.succ r' => (markerStr j).length + 1 + t.length + slotPos rest (j + 1) r'

/-- Accumulated text that the round-robin loop appends to slot `r` out of the
units `ss` starting at loop index `idx` with `n` slots. -/
def gather : List (List Char) → Nat → Nat → Nat → List Char
  | [], _, _, _ => []
  | s :: rest, idx, n, r =>
    (if idx % n = r then s ++ [' '] else []) ++ gather rest (idx + 1) n r

/-! ### Supporting lemmas -/

theorem containsSub_nil (pat : List Char) (h : pat ≠ []) : containsSub [] pat = false := by
  unfold containsSub findFrom findAux
  simp [h]

theorem markerStr_ne_nil (k : Nat) : markerStr k ≠ [] := by
  simp [markerStr]

theorem distributeAux_length (n : Nat) (ss : List (List Char)) :
    ∀ (idx : Nat) (parts : List (List Char)),
    (distributeAux n ss idx parts).length = parts.length := by
  induction ss with
  | nil => intro idx parts; rfl
  | cons s rest ih =>
    intro idx parts
    rw [distributeAux, ih]
    exact List.length_set parts _ _

theorem zip_range_getD {α β : Type} :
    ∀ (a : List α) (b : List β) (d1 : α) (d2 : β),
    (List.range (min a.length b.length)).map (fun i => (a.getD i d1, b.getD i d2)) = a.zip b := by
  intro a
  induction a with
  | nil => intro b d1 d2; simp
  | cons x a' ih =>
    intro b d1 d2
    cases b with
    | nil => simp
    | cons y b' =>
      simp only [List.length_cons, Nat.succ_min_succ, List.range_succ_eq_map,
        List.map_cons, List.map_map, List.zip_cons_cons]
      refine congrArg₂ _ rfl ?_
      rw [← ih b' d1 d2]
      exact List.map_congr_left (fun i _ => rfl)

/-! ### C1 — job status after a fatal pipeline error -/

/-- C1: evaluation at the failing input.  A request with no character
images, no template thumbnail and a failing placeholder creation returns
the 400 error of line 420, yet the persisted job status is still
`rendering` — the code never transitions this job to `failed`, so the
claim's "no job is left in the rendering state" is violated by the code. -/
theorem C1_placeholder_failure_leaves_rendering :
    generateVideo ⟨false, fun _ => true, true⟩
        ⟨"hi".data, [], none, [], none, "en".data, "HD".data⟩
      = (JobStatus.rendering,
         GenResp.err 400 "No characters uploaded and placeholder creation failed".data) := rfl

/-! ### C2 — segmentation always returns one segment per slot -/

/-- C2: for every script and every slot count `n`, segmentation produces
exactly `n` text segments (marker mode, round-robin fallback and the
degenerate empty-script case all preserve the slot count). -/
theorem C2_segment_length (script : List Char) (n : Nat) :
    (segment script n).length = n := by
  unfold segment
  split
  · simp [segmentMarkers]
  · simp [roundRobinMode, distributeAux_length]

/-! ### C3 — marker mode on a proper subset of markers -/

/-- C3 counterexample: the script `"[C2]: hi"` contains marker `[C2]:` but
not `[C1]:` (a proper non-empty subset of the two markers), yet
segmentation does NOT fall through to round-robin mode: the code's
`any(m in script for m in markers)` test (line 462) enters marker mode. -/
theorem C3_counterexample :
    containsSub "[C2]: hi".data (markerStr 2) = true ∧
    containsSub "[C2]: hi".data (markerStr 1) = false ∧
    segment "[C2]: hi".data 2 ≠ roundRobinMode "[C2]: hi".data 2 := by
  refine ⟨rfl, rfl, ?_⟩
  decide

/-- C3 amended: marker mode is applied as soon as at least one of the `n`
markers occurs in the script, and any marker that is absent yields the
single-space placeholder for its slot. -/
theorem C3_amended (script : List Char) (n : Nat)
    (h : ∃ m ∈ markersList n, containsSub script m = true) :
    segment script n = segmentMarkers script n ∧
    ∀ i < n, findFrom script (markerStr (i + 1)) 0 = none →
      (segment script n).getD i [] = [' '] := by
  have hany : (markersList n).any (fun m => containsSub script m) = true := by
    rcases h with ⟨m, hm, hc⟩
    exact List.any_eq_true.mpr ⟨m, hm, hc⟩
  constructor
  · unfold segment
    rw [if_pos hany]
  · intro i hi hnone
    unfold segment
    rw [if_pos hany]
    unfold segmentMarkers
    rw [List.getD_eq_getElem?_getD]
    rw [List.getElem?_map]
    simp [List.getElem?_range hi, hnone]

/-- C3 witness: the amended statement applied to the concrete script
`"[C2]: hi"` with two slots. -/
theorem C3_amended_witness :
    segment "[C2]: hi".data 2 = segmentMarkers "[C2]: hi".data 2 ∧
    (segment "[C2]: hi".data 2).getD 0 [] = [' '] := by
  have h := C3_amended "[C2]: hi".data 2 ⟨markerStr 2, by decide, by decide⟩
  exact ⟨h.1, h.2 0 (by decide) (by decide)⟩

/-! ### C5 — round-robin fallback counterexample -/

/-- C5 counterexample: the marker-free script `"a\nb"` consists of two
non-empty lines, but with two slots the code does not put one line in each
slot: the fallback splits on sentence punctuation (line 477), not on
lines, so the whole script lands in slot 0 and slot 1 gets the single-space
placeholder. -/
theorem C5_counterexample :
    segment "a\nb".data 2 = ["a\nb".data, [' ']] ∧
    segment "a\nb".data 2 ≠ ["a".data, "b".data] := by
  constructor
  · decide
  · decide

/-! ### C5 — supporting lemmas for the amended round-robin statement -/

theorem splitAux_ne_nil : ∀ (l : List Char) (sk : Bool) (cur : List Char),
    splitAux sk cur l ≠ [] := by
  intro l
  induction l with
  | nil => intro sk cur; simp [splitAux]
  | cons c rest ih =>
    intro sk cur
    simp only [splitAux]
    split
    · split
      · exact ih _ _
      · exact ih _ _
    · split
      · exact List.cons_ne_nil _ _
      · exact ih _ _

theorem gather_nil_of_lt : ∀ (ss : List (List Char)) (idx n r : Nat),
    idx + ss.length ≤ n → r < idx → gather ss idx n r = [] := by
  intro ss
  induction ss with
  | nil => intro idx n r _ _; rfl
  | cons s rest ih =>
    intro idx n r h1 h2
    have hidx : idx % n = idx := Nat.mod_eq_of_lt (by simp at h1; omega)
    rw [gather, hidx, if_neg (by omega : ¬ idx = r), List.nil_append]
    exact ih (idx + 1) n r (by simp at h1 ⊢; omega) (by omega)

theorem gather_of_length : ∀ (ss : List (List Char)) (idx n r : Nat),
    idx + ss.length ≤ n → idx ≤ r → r < idx + ss.length →
    gather ss idx n r = ss.getD (r - idx) [] ++ [' '] := by
  intro ss
  induction ss with
  | nil =>
    intro idx n r _ h2 h3
    exfalso
    simp at h3
    omega
  | cons s rest ih =>
    intro idx n r h1 h2 h3
    have hidx : idx % n = idx := Nat.mod_eq_of_lt (by simp at h1; omega)
    rw [gather, hidx]
    by_cases he : idx = r
    · rw [if_pos he]
      subst he
      rw [Nat.sub_self, List.getD_cons_zero,
        gather_nil_of_lt rest (idx + 1) n idx (by simp at h1 ⊢; omega) (by omega),
        List.append_nil]
    · rw [if_neg he, List.nil_append,
        ih (idx + 1) n r (by simp at h1 ⊢; omega) (by omega) (by simp at h3 ⊢; omega)]
      have hsub : r - idx = (r - (idx + 1)) + 1 := by omega
      rw [hsub, List.getD_cons_succ]

theorem distributeAux_getD (n : Nat) (hn : 0 < n) :
    ∀ (ss : List (List Char)) (idx : Nat) (parts : List (List Char)),
    parts.length = n → ∀ r, r < n →
    (distributeAux n ss idx parts).getD r [] = parts.getD r [] ++ gather ss idx n r := by
  intro ss
  induction ss with
  | nil => intro idx parts hlen r hr; rw [distributeAux, gather, List.append_nil]
  | cons s rest ih =>
    intro idx parts hlen r hr
    rw [distributeAux, gather]
    have hmod : idx % n < n := Nat.mod_lt _ hn
    have hlen' : (parts.set (idx % n) (parts.getD (idx % n) [] ++ s ++ [' '])).length = n := by
      rw [List.length_set]; exact hlen
    rw [ih (idx + 1) _ hlen' r hr]
    by_cases he : idx % n = r
    · rw [if_pos he]
      subst he
      have hset : (parts.set (idx % n) (parts.getD (idx % n) [] ++ s ++ [' '])).getD (idx % n) []
          = parts.getD (idx % n) [] ++ s ++ [' '] := by
        rw [List.getD_eq_getElem?_getD,
          List.getElem?_set_eq_of_lt _ (by rw [hlen]; exact hmod)]
        rfl
      rw [hset]
      simp [List.append_assoc]
    · rw [if_neg he]
      have hset : (parts.set (idx % n) (parts.getD (idx % n) [] ++ s ++ [' '])).getD r []
          = parts.getD r [] := by
        rw [List.getD_eq_getElem?_getD, List.getElem?_set_ne he, ← List.getD_eq_getElem?_getD]
      rw [hset, List.nil_append]

theorem lstrip_cons_space (t : List Char) : lstrip (' ' :: t) = lstrip t := by
  simp [lstrip, List.dropWhile_cons_of_pos, show isWs ' ' = true from rfl]

theorem strip_cons_space (t : List Char) : strip (' ' :: t) = strip t := by
  unfold strip
  rw [lstrip_cons_space]

theorem rstrip_append_space (x : List Char) : rstrip (x ++ [' ']) = rstrip x := by
  unfold rstrip
  rw [List.reverse_append]
  simp only [List.reverse_cons, List.reverse_nil, List.nil_append, List.singleton_append]
  rw [List.dropWhile_cons_of_pos (by rfl)]

theorem dropWhile_append_nil (p : Char → Bool) :
    ∀ (a b : List Char), a.dropWhile p = [] → (a ++ b).dropWhile p = b.dropWhile p := by
  intro a
  induction a with
  | nil => intro b _; rfl
  | cons x t ih =>
    intro b h
    by_cases hp : p x = true
    · rw [List.dropWhile_cons_of_pos hp] at h
      rw [List.cons_append, List.dropWhile_cons_of_pos hp]
      exact ih b h
    · rw [List.dropWhile_cons_of_neg hp] at h
      exact absurd h (List.cons_ne_nil _ _)

theorem dropWhile_append_ne (p : Char → Bool) :
    ∀ (a b : List Char), a.dropWhile p ≠ [] → (a ++ b).dropWhile p = a.dropWhile p ++ b := by
  intro a
  induction a with
  | nil => intro b h; exact absurd rfl h
  | cons x t ih =>
    intro b h
    by_cases hp : p x = true
    · rw [List.dropWhile_cons_of_pos hp] at h
      rw [List.cons_append, List.dropWhile_cons_of_pos hp, List.dropWhile_cons_of_pos hp]
      exact ih b h
    · rw [List.cons_append, List.dropWhile_cons_of_neg hp, List.dropWhile_cons_of_neg hp,
        List.cons_append]

theorem strip_append_space (s : List Char) : strip (s ++ [' ']) = strip s := by
  unfold strip
  by_cases h : lstrip s = []
  · have h2 : lstrip (s ++ [' ']) = [] := by
      rw [lstrip, dropWhile_append_nil _ _ _ h]
      rw [List.dropWhile_cons_of_pos (by decide)]
      rfl
    rw [h, h2]
  · have h2 : lstrip (s ++ [' ']) = lstrip s ++ [' '] := by
      rw [lstrip, dropWhile_append_ne _ _ _ h]
      rfl
    rw [h2, rstrip_append_space]

theorem padSeg_append_space (s : List Char) : padSeg (s ++ [' ']) = padSeg s := by
  unfold padSeg
  rw [strip_append_space]

/-- C5 amended: in the fallback mode (no marker occurs in the script), the
trimmed script is split into sentences at whitespace following `.`, `!` or
`?` — not into lines or words — and sentence `i` is appended (with a
trailing space) to slot `i mod n`; each slot is then trimmed, empty slots
becoming the single space.  In particular, for a marker-free script of
exactly `n` sentences and `n` slots, each sentence ends up alone in its own
slot, trimmed and in order. -/
theorem C5_amended (script : List Char) (n : Nat) (hn : 0 < n)
    (hm : ∀ m ∈ markersList n, containsSub script m = false) :
    (∀ r, r < n → (segment script n).getD r [] =
        padSeg (gather (splitSentences (strip script)) 0 n r)) ∧
    ((splitSentences (strip script)).length = n →
      segment script n = (splitSentences (strip script)).map padSeg) := by
  have hany : (markersList n).any (fun m => containsSub script m) = false := by
    rw [List.any_eq_false]
    intro m hm2
    rw [hm m hm2]
    simp
  have hseg : segment script n = roundRobinMode script n := by
    unfold segment
    rw [if_neg (by simp [hany])]
  have hnonnil : splitSentences (strip script) ≠ [] := splitAux_ne_nil _ _ _
  set sents := splitSentences (strip script) with hsents
  have hrr : roundRobinMode script n
      = (distributeAux n (if sents = [] then [strip script] else sents) 0
          (List.replicate n [])).map padSeg := rfl
  rw [if_neg hnonnil] at hrr
  have hdlen : (distributeAux n sents 0 (List.replicate n [])).length = n := by
    rw [distributeAux_length, List.length_replicate]
  have hget : ∀ r, r < n → (segment script n).getD r [] = padSeg (gather sents 0 n r) := by
    intro r hr
    rw [hseg, hrr]
    rw [List.getD_eq_getElem _ _ (by rw [List.length_map, hdlen]; exact hr)]
    rw [List.getElem_map]
    have hd := distributeAux_getD n hn sents 0 (List.replicate n [])
      (List.length_replicate _ _) r hr
    rw [List.getD_eq_getElem _ _ (by rw [hdlen]; exact hr)] at hd
    rw [hd]
    congr 1
    rw [List.getD_eq_getElem _ _ (by rw [List.length_replicate]; exact hr),
      List.getElem_replicate, List.nil_append]
  refine ⟨hget, ?_⟩
  intro hlen
  apply List.ext_getElem
  · rw [hseg, hrr, List.length_map, hdlen, List.length_map, hlen]
  · intro i h1 h2
    have hi : i < n := by
      rw [hseg, hrr, List.length_map, hdlen] at h1
      exact h1
    have hg := hget i hi
    rw [List.getD_eq_getElem _ _ h1] at hg
    rw [hg, List.getElem_map]
    rw [gather_of_length sents 0 n i (by omega) (Nat.zero_le _) (by omega)]
    rw [Nat.sub_zero, padSeg_append_space]
    congr 1
    rw [List.getD_eq_getElem _ _ (by rw [hlen]; exact hi)]

/-- C5 witness: the amended statement at the marker-free two-sentence script
`"a. b."` with two slots: each sentence lands alone in its own slot. -/
theorem C5_amended_witness :
    (splitSentences (strip "a. b.".data)).length = 2 ∧
    segment "a. b.".data 2 = ["a.".data, "b.".data] := by
  have h := (C5_amended "a. b.".data 2 (by decide) (by decide)).2 (by decide)
  refine ⟨by decide, ?_⟩
  rw [h]
  rfl

/-! ### C6 — empty script -/

/-- C6 counterexample: on the empty script with two slots, slot 1 receives
the single-space string `" "`, not the empty string claimed (and slot 0
receives `" "` as well, not a fixed default utterance such as
"Hello from AiVantu", which appears nowhere in the code). -/
theorem C6_counterexample :
    segment [] 2 = [[' '], [' ']] ∧ ([' '] : List Char) ≠ [] := by
  constructor
  · decide
  · decide

/-- C6 amended: for the empty script every slot — slot 0 included — receives
the single-space placeholder `" "`. -/
theorem C6_amended (n : Nat) : segment [] n = List.replicate n [' '] := by
  have hany : (markersList n).any (fun m => containsSub [] m) = false := by
    rw [List.any_eq_false]
    intro m hm
    rcases List.mem_map.mp hm with ⟨i, _, rfl⟩
    rw [containsSub_nil _ (markerStr_ne_nil _)]
    simp
  unfold segment
  rw [if_neg (by simp [hany])]
  cases n with
  | zero => rfl
  | succ m =>
    show (distributeAux (m + 1) [[]] 0 (List.replicate (m + 1) [])).map padSeg
        = List.replicate (m + 1) [' ']
    rw [distributeAux, distributeAux]
    simp only [Nat.zero_mod, List.replicate_succ, List.set_cons_zero, List.getD_cons_zero,
      List.map_cons, List.map_replicate, List.nil_append, List.append_nil]
    rfl

/-! ### C7 — per-slot audio fallback order -/

/-- C7 counterexample: with no per-slot voice clip but a generic
`user_voice` upload present, slot 0's segment text `"hi"` is non-empty
after trimming, yet the audio is the saved generic upload (lines 496-501),
not speech synthesized from the segment text as the claim's fallback order
states. -/
theorem C7_counterexample :
    resolveAudio [] (some "uv.mp3".data) ["hi".data] "en".data 0
        = .generic "uv.mp3".data ∧
    strip "hi".data ≠ [] ∧
    resolveAudio [] (some "uv.mp3".data) ["hi".data] "en".data 0
        ≠ .tts "hi".data "en".data := by
  refine ⟨rfl, ?_, ?_⟩ <;> decide

/-- C7 amended: the fallback order per slot is: per-slot uploaded clip
(segment text ignored), else the generic `user_voice` upload when present,
else speech synthesized from exactly `char_texts[i]` (with the single-space
guard) and the request language. -/
theorem C7_amended (cv : List (List Char)) (uv : Option (List Char))
    (ct : List (List Char)) (lang : List Char) (i : Nat) :
    (i < cv.length → resolveAudio cv uv ct lang i = .uploaded (cv.getD i [])) ∧
    (cv.length ≤ i → ∀ p, uv = some p → resolveAudio cv uv ct lang i = .generic p) ∧
    (cv.length ≤ i → uv = none →
      resolveAudio cv uv ct lang i =
        .tts (if ct.getD i [' '] = [] then [' '] else ct.getD i [' ']) lang) := by
  refine ⟨fun h => ?_, fun h p hp => ?_, fun h hn => ?_⟩
  · simp [resolveAudio, h]
  · simp [resolveAudio, Nat.not_lt.mpr h, hp]
  · simp [resolveAudio, Nat.not_lt.mpr h, hn]

/-- C7 witness: scenario C — three images, one uploaded voice clip for
slot 0, no generic upload: slot 0 uses the clip verbatim, slots 1 and 2 are
synthesized from their own segments. -/
theorem C7_amended_witness :
    resolveAudio ["v0.mp3".data] none ["t0".data, "t1".data, "t2".data] "en".data 0
        = .uploaded "v0.mp3".data ∧
    resolveAudio ["v0.mp3".data] none ["t0".data, "t1".data, "t2".data] "en".data 1
        = .tts "t1".data "en".data ∧
    resolveAudio ["v0.mp3".data] none ["t0".data, "t1".data, "t2".data] "en".data 2
        = .tts "t2".data "en".data := by
  refine ⟨(C7_amended _ _ _ _ 0).1 (by decide), ?_, ?_⟩
  · have h := (C7_amended ["v0.mp3".data] none
      ["t0".data, "t1".data, "t2".data] "en".data 1).2.2 (by decide) rfl
    simpa using h
  · have h := (C7_amended ["v0.mp3".data] none
      ["t0".data, "t1".data, "t2".data] "en".data 2).2.2 (by decide) rfl
    simpa using h

/-! ### C8 — bitrate selection -/

/-- C8 counterexample: the tier string `"full-hd"` named by the claim maps
to the LOW bitrate: the code's medium tuple (line 276) contains
`"full hd"` (space) and `"fullhd"`, but not `"full-hd"`. -/
theorem C8_counterexample :
    selectBitrate "full-hd".data = "800k".data ∧
    ("800k".data : List Char) ≠ "2500k".data := by
  refine ⟨?_, ?_⟩ <;> decide

/-- C8 amended: bitrate selection is total and case-insensitive:
`fullhd` / `full hd` / `1080` / `1080p` map to the medium bitrate `2500k`,
`4k` / `2160` / `2160p` map to `8000k`, and every other value (including
the empty string, `standard`, and `full-hd`) maps to the low bitrate
`800k`. -/
theorem C8_amended (q : List Char) :
    (lowerStr q = "fullhd".data ∨ lowerStr q = "full hd".data ∨
     lowerStr q = "1080".data ∨ lowerStr q = "1080p".data →
       selectBitrate q = "2500k".data) ∧
    (lowerStr q = "4k".data ∨ lowerStr q = "2160".data ∨ lowerStr q = "2160p".data →
       selectBitrate q = "8000k".data) ∧
    (¬(lowerStr q = "fullhd".data ∨ lowerStr q = "full hd".data ∨
       lowerStr q = "1080".data ∨ lowerStr q = "1080p".data) →
     ¬(lowerStr q = "4k".data ∨ lowerStr q = "2160".data ∨ lowerStr q = "2160p".data) →
       selectBitrate q = "800k".data) := by
  refine ⟨fun h => ?_, fun h => ?_, fun h1 h2 => ?_⟩
  · have hq : q ≠ [] := by
      intro e
      rw [e] at h
      rcases h with h | h | h | h <;> exact absurd h (by decide)
    rcases h with h | h | h | h <;> simp [selectBitrate, h, hq]
  · have hq : q ≠ [] := by
      intro e
      rw [e] at h
      rcases h with h | h | h <;> exact absurd h (by decide)
    rcases h with h | h | h <;> simp [selectBitrate, h, hq]
  · by_cases hq : q = []
    · subst hq; rfl
    · simp only [not_or] at h1 h2
      simp [selectBitrate, hq, h1.1, h1.2.1, h1.2.2.1, h1.2.2.2, h2.1, h2.2.1, h2.2.2]

/-- C8 witness: the amended mapping at the concrete tiers `"FULLHD"`,
`"4K"` and `"standard"`. -/
theorem C8_amended_witness :
    selectBitrate "FULLHD".data = "2500k".data ∧
    selectBitrate "4K".data = "8000k".data ∧
    selectBitrate "standard".data = "800k".data := by
  refine ⟨(C8_amended "FULLHD".data).1 (Or.inl (by decide)),
          (C8_amended "4K".data).2.1 (Or.inl (by decide)),
          (C8_amended "standard".data).2.2 (by decide) (by decide)⟩

/-! ### C9 — background-music loop arithmetic -/

/-- C9: for a background track of positive duration `B` shorter than the
timeline duration `T`, looping `int(T/B) + 1` whole copies always covers the
timeline (`(floor(T/B)+1)*B >= T`) and the subsequent trim yields exactly
`T`; a track with `B >= T` is trimmed directly to `T`. -/
theorem C9_bg_duration (T B : ℚ) (hB : 0 < B) :
    (B < T → T ≤ loopedDur T B ∧ bgFinalDur T B = T) ∧
    (T ≤ B → bgFinalDur T B = T) := by
  constructor
  · intro hlt
    have h1 : T / B < (⌊T / B⌋ : ℚ) + 1 := Int.lt_floor_add_one _
    have h2 : T < ((⌊T / B⌋ : ℚ) + 1) * B := by
      rw [div_lt_iff₀ hB] at h1
      linarith
    have hT : T ≤ loopedDur T B := by
      unfold loopedDur nLoops
      push_cast
      linarith
    refine ⟨hT, ?_⟩
    unfold bgFinalDur subclipDur
    rw [if_pos hlt]
    exact min_eq_right hT
  · intro hle
    unfold bgFinalDur subclipDur
    rw [if_neg (not_lt.mpr hle)]
    exact min_eq_right hle

/-- C9 witness: a 3-unit track under a 7-unit timeline loops to 9 units and
trims to exactly 7; a 7-unit track under a 3-unit timeline trims to 3. -/
theorem C9_witness :
    (7 : ℚ) ≤ loopedDur 7 3 ∧ bgFinalDur 7 3 = 7 ∧ bgFinalDur 3 7 = 3 := by
  have h1 := (C9_bg_duration 7 3 (by norm_num)).1 (by norm_num)
  have h2 := (C9_bg_duration 3 7 (by norm_num)).2 (by norm_num)
  exact ⟨h1.1, h1.2, h2⟩

/-! ### C10 — timeline composer input pairing -/

/-- C10: the composer raises its `ValueError` exactly when
`min(len(images), len(audios)) = 0`; otherwise it builds exactly
`min(len(images), len(audios))` slot pairs in index order, silently
dropping the surplus entries of the longer list. -/
theorem C10_composeSlots (imgs auds : List (List Char)) :
    ((∃ e, composeSlots imgs auds = .error e) ↔ min imgs.length auds.length = 0) ∧
    (0 < min imgs.length auds.length → composeSlots imgs auds = .ok (imgs.zip auds)) := by
  constructor
  · constructor
    · rintro ⟨e, he⟩
      by_contra hn
      simp [composeSlots, hn] at he
    · intro h0
      refine ⟨"No character images or audios provided for rendering".data, ?_⟩
      simp [composeSlots, h0]
  · intro hpos
    have hne : ¬ min imgs.length auds.length = 0 := Nat.pos_iff_ne_zero.mp hpos
    simp only [composeSlots]
    rw [if_neg hne, zip_range_getD]

/-- C10 witness: one image and two audio clips compose into a single pair,
dropping the surplus audio; the paired result is the zip of the inputs. -/
theorem C10_witness :
    composeSlots ["a.png".data] ["x.mp3".data, "y.mp3".data]
      = .ok [("a.png".data, "x.mp3".data)] := by
  have h := (C10_composeSlots ["a.png".data] ["x.mp3".data, "y.mp3".data]).2 (by decide)
  rw [h]
  rfl

/-! ### C4 — supporting lemmas: decimal digits and marker strings -/

theorem digitChar_isDigit {d : Nat} (h : d < 10) : (Nat.digitChar d).isDigit = true := by
  interval_cases d <;> decide

theorem digitChar_inj {d1 d2 : Nat} (h1 : d1 < 10) (h2 : d2 < 10)
    (h : Nat.digitChar d1 = Nat.digitChar d2) : d1 = d2 := by
  interval_cases d1 <;> interval_cases d2 <;> first
    | rfl
    | exact absurd h (by decide)

theorem natCharsAux_digit : ∀ (fuel n : Nat), n < fuel →
    ∀ c ∈ natCharsAux fuel n, c.isDigit = true := by
  intro fuel
  induction fuel with
  | zero => intro n h; omega
  | succ f ih =>
    intro n h c hc
    rw [natCharsAux] at hc
    by_cases h10 : n < 10
    · rw [if_pos h10] at hc
      simp at hc
      subst hc
      exact digitChar_isDigit h10
    · rw [if_neg h10] at hc
      rcases List.mem_append.mp hc with h1 | h2
      · exact ih (n / 10) (by omega) c h1
      · simp at h2
        subst h2
        exact digitChar_isDigit (Nat.mod_lt _ (by norm_num))

theorem natCharsAux_ne_nil : ∀ (fuel n : Nat), n < fuel → natCharsAux fuel n ≠ [] := by
  intro fuel n h
  cases fuel with
  | zero => omega
  | succ f =>
    rw [natCharsAux]
    by_cases h10 : n < 10
    · rw [if_pos h10]; exact List.cons_ne_nil _ _
    · rw [if_neg h10]; simp

theorem append_singleton_inj {α : Type} {a b : List α} {x y : α}
    (h : a ++ [x] = b ++ [y]) : a = b ∧ x = y := by
  have h2 := congrArg List.reverse h
  simp only [List.reverse_append, List.reverse_cons, List.reverse_nil, List.nil_append,
    List.singleton_append] at h2
  injection h2 with hxy hab
  refine ⟨?_, hxy⟩
  rw [← List.reverse_reverse a, hab, List.reverse_reverse]

theorem natCharsAux_inj : ∀ (n1 n2 f1 f2 : Nat), n1 < f1 → n2 < f2 →
    natCharsAux f1 n1 = natCharsAux f2 n2 → n1 = n2 := by
  intro n1
  induction n1 using Nat.strong_induction_on with
  | _ n1 ih =>
    intro n2 f1 f2 h1 h2 heq
    cases f1 with
    | zero => omega
    | succ g1 =>
      cases f2 with
      | zero => omega
      | succ g2 =>
        rw [natCharsAux, natCharsAux] at heq
        by_cases a : n1 < 10 <;> by_cases b : n2 < 10
        · rw [if_pos a, if_pos b] at heq
          simp at heq
          exact digitChar_inj a b heq
        · rw [if_pos a, if_neg b] at heq
          have hlen := congrArg List.length heq
          simp at hlen
          exact absurd hlen (natCharsAux_ne_nil g2 (n2 / 10) (by omega))
        · rw [if_neg a, if_pos b] at heq
          have hlen := congrArg List.length heq
          simp at hlen
          exact absurd hlen (natCharsAux_ne_nil g1 (n1 / 10) (by omega))
        · rw [if_neg a, if_neg b] at heq
          obtain ⟨hpre, hlast⟩ := append_singleton_inj heq
          have hmod : n1 % 10 = n2 % 10 :=
            digitChar_inj (Nat.mod_lt _ (by norm_num)) (Nat.mod_lt _ (by norm_num)) hlast
          have hdiv : n1 / 10 = n2 / 10 :=
            ih (n1 / 10) (by omega) (n2 / 10) g1 g2 (by omega) (by omega) hpre
          omega

theorem natChars_digit (k : Nat) : ∀ c ∈ natChars k, c.isDigit = true :=
  natCharsAux_digit (k + 1) k (by omega)

theorem natChars_inj {k j : Nat} (h : natChars k = natChars j) : k = j :=
  natCharsAux_inj k j (k + 1) (j + 1) (by omega) (by omega) h

theorem marker_tail_no_lbrack (k : Nat) :
    ∀ c ∈ ('C' :: (natChars k ++ [']', ':'])), c ≠ '[' := by
  intro c hc
  rcases List.mem_cons.mp hc with rfl | hc2
  · decide
  · rcases List.mem_append.mp hc2 with h3 | h4
    · intro he
      subst he
      exact absurd (natChars_digit k _ h3) (by decide)
    · simp at h4
      rcases h4 with rfl | rfl <;> decide

theorem marker_lbrack_index {k i : Nat} (h : (markerStr k)[i]? = some '[') : i = 0 := by
  cases i with
  | zero => rfl
  | succ i' =>
    rw [markerStr, List.getElem?_cons_succ] at h
    exact absurd rfl (marker_tail_no_lbrack k '[' (List.getElem?_mem h))

theorem marker_head (k : Nat) : (markerStr k)[0]? = some '[' := rfl

theorem marker_length_pos (k : Nat) : 0 < (markerStr k).length := by
  simp [markerStr]

/-! ### C4 — supporting lemmas: matchAt and findFrom -/

theorem matchAt_ne_nil {pat s : List Char} {q : Nat} (hp : pat ≠ [])
    (h : matchAt pat s q) : q < s.length := by
  apply List.length_lt_of_drop_ne_nil
  intro hd
  rw [matchAt, hd] at h
  exact hp (h.symm.trans (List.take_nil))

theorem matchAt_get {pat s : List Char} {q : Nat} (h : matchAt pat s q)
    {i : Nat} (hi : i < pat.length) : s[q + i]? = pat[i]? := by
  rw [matchAt] at h
  conv_rhs => rw [← h]
  rw [List.getElem?_take_of_lt hi, List.getElem?_drop]

theorem matchAt_cons_cons {x c : Char} {p t : List Char} :
    matchAt (x :: p) (c :: t) 0 ↔ c = x ∧ matchAt p t 0 := by
  simp [matchAt, List.cons.injEq]

theorem matchAt_append_cancel (a : List Char) {u v : List Char} :
    matchAt (a ++ u) (a ++ v) 0 ↔ matchAt u v 0 := by
  induction a with
  | nil => simp
  | cons x t ih => simpa [matchAt_cons_cons] using ih

theorem matchAt_self (pat x : List Char) : matchAt pat (pat ++ x) 0 := by
  rw [matchAt, List.drop_zero, List.take_left]

theorem matchAt_append_right {pat b : List Char} (a : List Char) {q : Nat}
    (h : matchAt pat b q) : matchAt pat (a ++ b) (a.length + q) := by
  rw [matchAt] at *
  rw [← List.drop_drop, List.drop_left]
  exact h

theorem matchAt_append_elim {pat a b : List Char} {q : Nat} (hq : a.length ≤ q)
    (h : matchAt pat (a ++ b) q) : matchAt pat b (q - a.length) := by
  rw [matchAt] at *
  rw [List.drop_append_eq_append_drop, List.drop_of_length_le hq, List.nil_append] at h
  exact h

theorem matchAt_append_fit {pat a b : List Char} {q : Nat} (hq : q < a.length)
    (hfit : pat.length ≤ a.length - q) (h : matchAt pat (a ++ b) q) : matchAt pat a q := by
  rw [matchAt] at *
  rw [List.drop_append_eq_append_drop, Nat.sub_eq_zero_of_le (Nat.le_of_lt hq),
    List.drop_zero, List.take_append_eq_append_take,
    Nat.sub_eq_zero_of_le (by simpa using hfit), List.take_zero, List.append_nil] at h
  exact h

theorem digits_sentinel {p : Char → Bool} {x : Char} (hx : p x = false) :
    ∀ (as : List Char) (bs u v : List Char), (∀ c ∈ as, p c = true) →
    (∀ c ∈ bs, p c = true) →
    matchAt (as ++ x :: u) (bs ++ x :: v) 0 → as = bs := by
  intro as
  induction as with
  | nil =>
    intro bs u v _ hb h
    cases bs with
    | nil => rfl
    | cons y bs' =>
      rw [List.nil_append, List.cons_append, matchAt_cons_cons] at h
      have : p x = true := h.1 ▸ hb y (List.mem_cons_self _ _)
      rw [this] at hx
      cases hx
  | cons a as' ih =>
    intro bs u v ha hb h
    cases bs with
    | nil =>
      rw [List.cons_append, List.nil_append, matchAt_cons_cons] at h
      have : p x = true := h.1 ▸ ha a (List.mem_cons_self _ _)
      rw [this] at hx
      cases hx
    | cons b bs' =>
      rw [List.cons_append, List.cons_append, matchAt_cons_cons] at h
      rw [ih bs' u v (fun c hc => ha c (List.mem_cons_of_mem _ hc))
        (fun c hc => hb c (List.mem_cons_of_mem _ hc)) h.2, h.1]

theorem marker_matchAt_marker {k j : Nat} {l : List Char}
    (h : matchAt (markerStr k) (markerStr j ++ l) 0) : k = j := by
  have hshape : markerStr j ++ l
      = '[' :: 'C' :: (natChars j ++ (']' :: (':' :: l))) := by
    simp [markerStr]
  rw [hshape, markerStr] at h
  have h2 : matchAt (natChars k ++ (']' :: [':']))
      (natChars j ++ (']' :: (':' :: l))) 0 := by
    have := (matchAt_append_cancel ['[', 'C']).mp (by simpa using h)
    simpa using this
  exact natChars_inj (digits_sentinel (p := Char.isDigit) (by decide)
    (natChars k) (natChars j) _ _ (natChars_digit k) (natChars_digit j) h2)

theorem findAux_none_iff (pat : List Char) : ∀ (l : List Char) (i : Nat),
    findAux pat l i = none ↔ ∀ j, ¬ (l.drop j).take pat.length = pat := by
  intro l
  induction l with
  | nil =>
    intro i
    rw [findAux]
    by_cases hp : pat = []
    · subst hp
      simp
    · rw [if_neg hp]
      constructor
      · intro _ j hc
        simp at hc
        exact hp hc
      · intro _
        rfl
  | cons c t ih =>
    intro i
    rw [findAux]
    by_cases hc : (c :: t).take pat.length = pat
    · rw [if_pos hc]
      constructor
      · intro h
        cases h
      · intro h
        exact absurd hc (by simpa using h 0)
    · rw [if_neg hc]
      rw [ih (i + 1)]
      constructor
      · intro h j
        cases j with
        | zero => simpa using hc
        | succ j' => simpa using h j'
      · intro h j'
        simpa using h (j' + 1)

theorem findAux_some_of (pat : List Char) : ∀ (l : List Char) (i j : Nat),
    (l.drop j).take pat.length = pat →
    (∀ j', j' < j → ¬ (l.drop j').take pat.length = pat) →
    findAux pat l i = some (i + j) := by
  intro l
  induction l with
  | nil =>
    intro i j hm hmin
    rw [List.drop_nil, List.take_nil] at hm
    have hj : j = 0 := by
      by_contra hj0
      exact hmin 0 (by omega) (by rw [List.drop_nil, List.take_nil]; exact hm)
    subst hj
    rw [findAux, if_pos hm.symm, Nat.add_zero]
  | cons c t ih =>
    intro i j hm hmin
    cases j with
    | zero =>
      rw [List.drop_zero] at hm
      rw [findAux, if_pos hm, Nat.add_zero]
    | succ j' =>
      have hc : ¬ (c :: t).take pat.length = pat := by
        have := hmin 0 (by omega)
        simpa using this
      rw [findAux, if_neg hc]
      rw [ih (i + 1) j' (by simpa using hm)
        (fun j'' hj'' => by simpa using hmin (j'' + 1) (by omega))]
      congr 1
      omega

theorem findFrom_eq_some {s pat : List Char} {start r : Nat}
    (hge : start ≤ r) (hmatch : matchAt pat s r)
    (hmin : ∀ q, start ≤ q → q < r → ¬ matchAt pat s q) :
    findFrom s pat start = some r := by
  rw [findFrom]
  have h1 : ((s.drop start).drop (r - start)).take pat.length = pat := by
    rw [List.drop_drop]
    have he : start + (r - start) = r := by omega
    rw [he]
    exact hmatch
  have h2 : ∀ j', j' < r - start → ¬ ((s.drop start).drop j').take pat.length = pat := by
    intro j' hj' hcontra
    rw [List.drop_drop] at hcontra
    exact hmin (start + j') (by omega) (by omega) hcontra
  rw [findAux_some_of pat _ start (r - start) h1 h2]
  congr 1
  omega

theorem findFrom_eq_none {s pat : List Char} {start : Nat}
    (h : ∀ q, start ≤ q → ¬ matchAt pat s q) : findFrom s pat start = none := by
  rw [findFrom, findAux_none_iff]
  intro j hc
  rw [List.drop_drop] at hc
  exact h (start + j) (by omega) hc

theorem findFrom_none_forall {s pat : List Char} {start : Nat}
    (h : findFrom s pat start = none) : ∀ q, start ≤ q → ¬ matchAt pat s q := by
  intro q hq hm
  rw [findFrom, findAux_none_iff] at h
  apply h (q - start)
  rw [List.drop_drop]
  have he : start + (q - start) = q := by omega
  rw [he]
  exact hm

theorem containsSub_no_match {t pat : List Char}
    (h : containsSub t pat = false) : ∀ i, ¬ matchAt pat t i := by
  intro i
  have hn : findFrom t pat 0 = none := by
    revert h
    rw [containsSub]
    cases findFrom t pat 0 <;> simp
  exact findFrom_none_forall hn i (Nat.zero_le _)

/-! ### C4 — supporting lemmas: occurrences of markers in the built script -/

theorem matchAt_le_length {pat s : List Char} {q : Nat} (h : matchAt pat s q) :
    pat.length ≤ s.length - q := by
  rw [matchAt] at h
  have h1 := congrArg List.length h
  rw [List.length_take, List.length_drop] at h1
  have h2 := Nat.min_le_right pat.length (s.length - q)
  rw [h1] at h2
  exact h2

theorem buildScript_cons (t : List Char) (rest : List (List Char)) (j : Nat) :
    buildScript (t :: rest) j
      = (markerStr j ++ (' ' :: t)) ++ buildScript rest (j + 1) := by
  rw [buildScript]
  simp

theorem buildScript_matchAt_self : ∀ (ts : List (List Char)) (j r : Nat), r < ts.length →
    matchAt (markerStr (j + r)) (buildScript ts j) (slotPos ts j r) := by
  intro ts
  induction ts with
  | nil => intro j r hr; simp at hr
  | cons t rest ih =>
    intro j r hr
    cases r with
    | zero =>
      show matchAt (markerStr (j + 0)) (buildScript (t :: rest) j) 0
      rw [Nat.add_zero, buildScript]
      exact matchAt_self _ _
    | succ r' =>
      have harith : j + (r' + 1) = (j + 1) + r' := by omega
      rw [harith]
      have hpos : slotPos (t :: rest) j (r' + 1)
          = (markerStr j ++ (' ' :: t)).length + slotPos rest (j + 1) r' := by
        show (markerStr j).length + 1 + t.length + slotPos rest (j + 1) r' = _
        simp [List.length_append]
        omega
      rw [hpos, buildScript_cons]
      exact matchAt_append_right _ (ih (j + 1) r' (by simpa using hr))

theorem buildScript_matchAt_inv : ∀ (ts : List (List Char)) (j k q : Nat),
    (∀ t ∈ ts, ∀ i, ¬ matchAt (markerStr k) t i) →
    matchAt (markerStr k) (buildScript ts j) q →
    ∃ r, r < ts.length ∧ k = j + r ∧ q = slotPos ts j r := by
  intro ts
  induction ts with
  | nil =>
    intro j k q _ h
    exfalso
    rw [buildScript, matchAt] at h
    simp at h
    exact markerStr_ne_nil k h
  | cons t rest ih =>
    intro j k q hfree h
    by_cases hq0 : q = 0
    · subst hq0
      rw [buildScript] at h
      have hk := marker_matchAt_marker h
      exact ⟨0, by simp, by omega, rfl⟩
    · by_cases hqM : q < (markerStr j).length
      · exfalso
        have hg := matchAt_get h (i := 0) (marker_length_pos k)
        rw [Nat.add_zero, marker_head] at hg
        rw [buildScript, List.getElem?_append, if_pos hqM] at hg
        exact hq0 (marker_lbrack_index hg)
      · by_cases hqM1 : q = (markerStr j).length
        · exfalso
          have hg := matchAt_get h (i := 0) (marker_length_pos k)
          rw [Nat.add_zero, marker_head] at hg
          rw [buildScript, List.getElem?_append, if_neg (by omega), hqM1,
            Nat.sub_self] at hg
          simp at hg
        · have hqgt : (markerStr j).length + 1 ≤ q := by omega
          have h' : matchAt (markerStr k) (t ++ buildScript rest (j + 1))
              (q - ((markerStr j).length + 1)) := by
            have hsh : buildScript (t :: rest) j
                = (markerStr j ++ [' ']) ++ (t ++ buildScript rest (j + 1)) := by
              rw [buildScript]
              simp
            rw [hsh] at h
            have hel := matchAt_append_elim (a := markerStr j ++ [' '])
              (by simpa using hqgt) h
            simpa using hel
          by_cases hit : q - ((markerStr j).length + 1) < t.length
          · by_cases hfit : (markerStr k).length ≤ t.length - (q - ((markerStr j).length + 1))
            · exact absurd (matchAt_append_fit hit hfit h')
                (hfree t (List.mem_cons_self _ _) _)
            · exfalso
              cases rest with
              | nil =>
                have hle := matchAt_le_length h'
                simp [buildScript] at hle
                omega
              | cons t2 rest2 =>
                have hidx : t.length - (q - ((markerStr j).length + 1))
                    < (markerStr k).length := by omega
                have hg := matchAt_get h' hidx
                have harr : q - ((markerStr j).length + 1)
                    + (t.length - (q - ((markerStr j).length + 1))) = t.length := by omega
                rw [harr, List.getElem?_append_right (Nat.le_refl _), Nat.sub_self] at hg
                have hP : (buildScript (t2 :: rest2) (j + 1))[0]? = some '[' := by
                  rw [buildScript]
                  rfl
                rw [hP] at hg
                have h0 := marker_lbrack_index hg.symm
                omega
          · have h'' : matchAt (markerStr k) (buildScript rest (j + 1))
                (q - ((markerStr j).length + 1) - t.length) :=
              matchAt_append_elim (by omega) h'
            obtain ⟨r', hr', hk, hq'⟩ := ih (j + 1) k _
              (fun t' ht' => hfree t' (List.mem_cons_of_mem _ ht')) h''
            refine ⟨r' + 1, by simpa using hr', by omega, ?_⟩
            show q = (markerStr j).length + 1 + t.length + slotPos rest (j + 1) r'
            omega

theorem foldl_min_eq : ∀ {l : List Nat} {a m : Nat},
    (m ∈ l ∨ m = a) → (∀ x ∈ l, m ≤ x) → m ≤ a → l.foldl min a = m := by
  intro l
  induction l with
  | nil =>
    intro a m hm _ _
    rcases hm with h | h
    · simp at h
    · rw [List.foldl_nil, h]
  | cons x t ih =>
    intro a m hm hle ha
    rw [List.foldl_cons]
    have hmx : m ≤ x := hle x (List.mem_cons_self _ _)
    have hma : m ≤ min a x := le_min ha hmx
    apply ih ?_ (fun y hy => hle y (List.mem_cons_of_mem _ hy)) hma
    rcases hm with hmem | heq
    · rcases List.mem_cons.mp hmem with heqx | hmem2
      · right
        subst heqx
        exact (Nat.min_eq_right ha).symm
      · left
        exact hmem2
    · right
      subst heq
      exact (Nat.min_eq_left hmx).symm

theorem slotPos_lt_mono : ∀ (ts : List (List Char)) (j r1 r2 : Nat),
    r1 < r2 → r2 < ts.length → slotPos ts j r1 < slotPos ts j r2 := by
  intro ts
  induction ts with
  | nil => intro j r1 r2 _ h2; simp at h2
  | cons t rest ih =>
    intro j r1 r2 h12 h2
    cases r2 with
    | zero => omega
    | succ r2' =>
      cases r1 with
      | zero =>
        show 0 < (markerStr j).length + 1 + t.length + slotPos rest (j + 1) r2'
        have := marker_length_pos j
        omega
      | succ r1' =>
        show (markerStr j).length + 1 + t.length + slotPos rest (j + 1) r1'
            < (markerStr j).length + 1 + t.length + slotPos rest (j + 1) r2'
        have := ih (j + 1) r1' r2' (by omega) (by simpa using h2)
        omega

theorem slotPos_le_mono (ts : List (List Char)) (j : Nat) {r1 r2 : Nat}
    (h : r1 ≤ r2) (h2 : r2 < ts.length) : slotPos ts j r1 ≤ slotPos ts j r2 := by
  rcases Nat.lt_or_eq_of_le h with hlt | heq
  · exact Nat.le_of_lt (slotPos_lt_mono ts j r1 r2 hlt h2)
  · rw [heq]

theorem slotPos_succ : ∀ (ts : List (List Char)) (j r : Nat), r + 1 < ts.length →
    slotPos ts j (r + 1)
      = slotPos ts j r + (markerStr (j + r)).length + 1 + (ts.getD r []).length := by
  intro ts
  induction ts with
  | nil => intro j r h; simp at h
  | cons t rest ih =>
    intro j r h
    cases r with
    | zero =>
      show (markerStr j).length + 1 + t.length + slotPos rest (j + 1) 0
          = 0 + (markerStr (j + 0)).length + 1 + ((t :: rest).getD 0 []).length
      have h0 : slotPos rest (j + 1) 0 = 0 := by cases rest <;> rfl
      rw [h0, List.getD_cons_zero]
      simp only [Nat.add_zero]
      omega
    | succ r' =>
      show (markerStr j).length + 1 + t.length + slotPos rest (j + 1) (r' + 1)
          = ((markerStr j).length + 1 + t.length + slotPos rest (j + 1) r')
            + (markerStr (j + (r' + 1))).length + 1 + ((t :: rest).getD (r' + 1) []).length
      rw [ih (j + 1) r' (by simpa using h)]
      have hidx : (j + 1) + r' = j + (r' + 1) := by omega
      rw [hidx, List.getD_cons_succ]
      omega

theorem buildScript_drop : ∀ (ts : List (List Char)) (j r : Nat), r < ts.length →
    (buildScript ts j).drop (slotPos ts j r) = buildScript (ts.drop r) (j + r) := by
  intro ts
  induction ts with
  | nil => intro j r hr; simp at hr
  | cons t rest ih =>
    intro j r hr
    cases r with
    | zero =>
      show (buildScript (t :: rest) j).drop 0 = buildScript ((t :: rest).drop 0) (j + 0)
      rw [List.drop_zero, List.drop_zero, Nat.add_zero]
    | succ r' =>
      show (buildScript (t :: rest) j).drop
          ((markerStr j).length + 1 + t.length + slotPos rest (j + 1) r')
        = buildScript ((t :: rest).drop (r' + 1)) (j + (r' + 1))
      rw [buildScript_cons]
      have hlen : (markerStr j ++ (' ' :: t)).length
          = (markerStr j).length + 1 + t.length := by
        simp [List.length_append]
        omega
      have harith : (markerStr j).length + 1 + t.length + slotPos rest (j + 1) r'
          = (markerStr j ++ (' ' :: t)).length + slotPos rest (j + 1) r' := by omega
      rw [harith, ← List.drop_drop, List.drop_left, List.drop_succ_cons]
      have hj : j + (r' + 1) = (j + 1) + r' := by omega
      rw [hj]
      exact ih (j + 1) r' (by simpa using hr)

theorem marker_occ {texts : List (List Char)} {k : Nat}
    (hfree : ∀ t ∈ texts, ∀ idx, ¬ matchAt (markerStr k) t idx)
    (hk1 : 1 ≤ k) (hkn : k ≤ texts.length) (q : Nat) :
    matchAt (markerStr k) (buildScript texts 1) q ↔ q = slotPos texts 1 (k - 1) := by
  constructor
  · intro h
    obtain ⟨r, hr, hkr, hq⟩ := buildScript_matchAt_inv texts 1 k q hfree h
    have he : r = k - 1 := by omega
    rw [← he]
    exact hq
  · intro h
    subst h
    have hself := buildScript_matchAt_self texts 1 (k - 1) (by omega)
    have he : 1 + (k - 1) = k := by omega
    rw [he] at hself
    exact hself

theorem nextMarkerIdx_buildScript (texts : List (List Char))
    (hfreeK : ∀ k, 1 ≤ k → k ≤ texts.length →
      ∀ t ∈ texts, ∀ idx, ¬ matchAt (markerStr k) t idx)
    {i : Nat} (hi : i < texts.length) :
    nextMarkerIdx (buildScript texts 1) (markersList texts.length) (slotPos texts 1 i + 1)
      = if i + 1 < texts.length then slotPos texts 1 (i + 1)
        else (buildScript texts 1).length := by
  have hfindafter : ∀ v, v < texts.length →
      findFrom (buildScript texts 1) (markerStr (v + 1)) (slotPos texts 1 i + 1)
        = if v ≤ i then none else some (slotPos texts 1 v) := by
    intro v hv
    by_cases hvi : v ≤ i
    · rw [if_pos hvi]
      apply findFrom_eq_none
      intro q hq hm
      have hqe := (marker_occ (hfreeK (v + 1) (by omega) (by omega)) (by omega)
        (by omega) q).mp hm
      simp only [Nat.add_sub_cancel] at hqe
      have hle := slotPos_le_mono texts 1 hvi hi
      omega
    · rw [if_neg hvi]
      apply findFrom_eq_some
      · have := slotPos_lt_mono texts 1 i v (by omega) hv
        omega
      · exact (marker_occ (hfreeK (v + 1) (by omega) (by omega)) (by omega)
          (by omega) _).mpr (by simp)
      · intro q hq hlt hm
        have hqe := (marker_occ (hfreeK (v + 1) (by omega) (by omega)) (by omega)
          (by omega) q).mp hm
        simp only [Nat.add_sub_cancel] at hqe
        omega
  by_cases hlast : i + 1 < texts.length
  · rw [if_pos hlast, nextMarkerIdx]
    apply foldl_min_eq
    · left
      apply List.mem_filterMap.mpr
      refine ⟨markerStr (i + 2), ?_, ?_⟩
      · exact List.mem_map.mpr ⟨i + 1, List.mem_range.mpr hlast, rfl⟩
      · have hf := hfindafter (i + 1) hlast
        rw [if_neg (by omega)] at hf
        exact hf
    · intro x hx
      obtain ⟨m, hm, hfind⟩ := List.mem_filterMap.mp hx
      obtain ⟨v, hvr, rfl⟩ := List.mem_map.mp hm
      have hvn := List.mem_range.mp hvr
      rw [hfindafter v hvn] at hfind
      by_cases hvi : v ≤ i
      · rw [if_pos hvi] at hfind
        cases hfind
      · rw [if_neg hvi] at hfind
        injection hfind with he
        rw [← he]
        exact slotPos_le_mono texts 1 (by omega) hvn
    · have hm := buildScript_matchAt_self texts 1 (i + 1) hlast
      exact Nat.le_of_lt (matchAt_ne_nil (markerStr_ne_nil _) hm)
  · rw [if_neg hlast, nextMarkerIdx]
    have hempty : (markersList texts.length).filterMap
        (fun m => findFrom (buildScript texts 1) m (slotPos texts 1 i + 1)) = [] := by
      apply List.filterMap_eq_nil_iff.mpr
      intro m hm
      obtain ⟨v, hvr, rfl⟩ := List.mem_map.mp hm
      have hvn := List.mem_range.mp hvr
      have hf := hfindafter v hvn
      rw [if_pos (by omega)] at hf
      exact hf
    rw [hempty]
    rfl

theorem segmentMarkers_getD {script : List Char} {n r p : Nat} (hr : r < n)
    (hfind : findFrom script (markerStr (r + 1)) 0 = some p) :
    (segmentMarkers script n).getD r []
      = if strip ((script.drop (p + (markerStr (r + 1)).length)).take
            (nextMarkerIdx script (markersList n) (p + 1)
              - (p + (markerStr (r + 1)).length))) = []
        then [' ']
        else strip ((script.drop (p + (markerStr (r + 1)).length)).take
            (nextMarkerIdx script (markersList n) (p + 1)
              - (p + (markerStr (r + 1)).length))) := by
  rw [segmentMarkers, List.getD_eq_getElem?_getD, List.getElem?_map, List.getElem?_range hr]
  simp [hfind]

/-- C4 counterexample: the round-trip fails as universally stated.  For
`N = 1` and the single text `""` (marker-free, and trimming to `""`), the
built script is `"[C1]: "` and segmentation returns `[" "]` — the code's
`part if part else " "` guard (line 471) replaces the empty extracted part
by a single space, so the result is not the trimmed text list `[""]`. -/
theorem C4_counterexample :
    containsSub [] (markerStr 1) = false ∧
    segment (buildScript [[]] 1) 1 = [[' ']] ∧
    segment (buildScript [[]] 1) 1 ≠ [strip []] := by
  refine ⟨by decide, by decide, by decide⟩

/-- C4 amended: marker-mode round-trip for texts whose trimmed form is
non-empty.  For every non-empty list of texts, none of which contains any
of the markers `[C1]:` … `[CN]:` as a substring, and each of which trims to
a non-empty string, segmenting the script obtained by concatenating
`[C{i}]: text_i` in order yields exactly the list of trimmed texts. -/
theorem C4_amended (texts : List (List Char)) (hne : texts ≠ [])
    (hfree : ∀ t ∈ texts, ∀ m ∈ markersList texts.length, containsSub t m = false)
    (hstrip : ∀ t ∈ texts, strip t ≠ []) :
    segment (buildScript texts 1) texts.length = texts.map strip := by
  have hn1 : 1 ≤ texts.length := List.length_pos.mpr hne
  have hfreeK : ∀ k, 1 ≤ k → k ≤ texts.length →
      ∀ t ∈ texts, ∀ idx, ¬ matchAt (markerStr k) t idx := by
    intro k h1 h2 t ht idx
    refine containsSub_no_match (hfree t ht (markerStr k) ?_) idx
    exact List.mem_map.mpr ⟨k - 1, List.mem_range.mpr (by omega), by congr 1; omega⟩
  have hfind : ∀ r, r < texts.length →
      findFrom (buildScript texts 1) (markerStr (r + 1)) 0 = some (slotPos texts 1 r) := by
    intro r hr
    apply findFrom_eq_some (Nat.zero_le _)
    · exact (marker_occ (hfreeK (r + 1) (by omega) (by omega)) (by omega)
        (by omega) _).mpr (by simp)
    · intro q _ hq hm
      have hqe := (marker_occ (hfreeK (r + 1) (by omega) (by omega)) (by omega)
        (by omega) q).mp hm
      simp only [Nat.add_sub_cancel] at hqe
      omega
  have hany : (markersList texts.length).any
      (fun m => containsSub (buildScript texts 1) m) = true := by
    apply List.any_eq_true.mpr
    refine ⟨markerStr (0 + 1), List.mem_map.mpr ⟨0, List.mem_range.mpr (by omega), rfl⟩, ?_⟩
    simp only [containsSub]
    rw [hfind 0 (by omega)]
    rfl
  unfold segment
  rw [if_pos hany]
  apply List.ext_getElem
  · simp [segmentMarkers]
  · intro r h1 h2
    have hrn : r < texts.length := by simpa [segmentMarkers] using h1
    rw [← List.getD_eq_getElem _ [] h1]
    rw [List.getElem_map]
    rw [segmentMarkers_getD hrn (hfind r hrn)]
    rw [nextMarkerIdx_buildScript texts hfreeK hrn]
    have hdropped : (buildScript texts 1).drop
          (slotPos texts 1 r + (markerStr (r + 1)).length)
        = ' ' :: (texts[r] ++ buildScript (texts.drop (r + 1)) ((1 + r) + 1)) := by
      rw [← List.drop_drop, buildScript_drop texts 1 r hrn,
        List.drop_eq_getElem_cons hrn, buildScript]
      have hmk : markerStr (1 + r) = markerStr (r + 1) := by rw [Nat.add_comm]
      rw [hmk, List.drop_left]
    by_cases hA : r + 1 < texts.length
    · rw [if_pos hA]
      have harith : slotPos texts 1 (r + 1)
            - (slotPos texts 1 r + (markerStr (r + 1)).length)
          = (texts[r]).length + 1 := by
        rw [slotPos_succ texts 1 r hA]
        have hmk : (markerStr (1 + r)).length = (markerStr (r + 1)).length := by
          rw [Nat.add_comm]
        rw [hmk, List.getD_eq_getElem _ [] hrn]
        omega
      rw [harith, hdropped, List.take_succ_cons, List.take_left]
      rw [strip_cons_space]
      rw [if_neg (hstrip _ (List.getElem_mem hrn))]
    · rw [if_neg hA]
      have hlen : (buildScript texts 1).length
            - (slotPos texts 1 r + (markerStr (r + 1)).length)
          = ((buildScript texts 1).drop
              (slotPos texts 1 r + (markerStr (r + 1)).length)).length := by
        rw [List.length_drop]
      rw [hlen, List.take_length, hdropped]
      have hdropnil : texts.drop (r + 1) = [] := by
        rw [List.drop_eq_nil_iff]
        omega
      rw [hdropnil, buildScript, List.append_nil]
      rw [strip_cons_space]
      rw [if_neg (hstrip _ (List.getElem_mem hrn))]

/-- C4 witness: the amended round-trip at the concrete texts
`["Hi", "Bye"]`: the built script is `"[C1]: Hi[C2]: Bye"` and it segments
back to `["Hi", "Bye"]`. -/
theorem C4_amended_witness :
    buildScript ["Hi".data, "Bye".data] 1 = "[C1]: Hi[C2]: Bye".data ∧
    segment (buildScript ["Hi".data, "Bye".data] 1) 2 = ["Hi".data, "Bye".data] := by
  refine ⟨by decide, ?_⟩
  have h := C4_amended ["Hi".data, "Bye".data] (by decide) (by decide) (by decide)
  exact h.trans (by decide)

end AiVantu
